import Mathlib

/-!
Verification of ZetaStitcher core components: tile grid model
(filematrix.py), spanning-tree position estimator (fuse_runner.py),
global displacement optimizer (global_optimization.py) and the streaming
fusion engine (fuser/fuse_runner.py), shallowly embedded in Lean.

Arrays of the Python source are modelled as functions out of natural
number indices (entries beyond the declared shape are irrelevant), float
arithmetic as exact rational or real arithmetic, and pandas data frames
as lists of records.
-/

namespace ZetaStitcher

attribute [local semireducible] Rat.add Rat.sub Rat.mul Rat.inv

/-- Entries of the displacement fields: a (z, y, x) vector, as in the
arrays of shape `[ysize, xsize, 3]` of global_optimization.py. -/
abbrev Vec3 := ℚ × ℚ × ℚ

/-! ## Decision vector (global_optimization.py)
`decision_vector_to_tile_coords` reshapes the decision vector to
`[ysize, xsize, 3]`, replaces row 0 by its cumulative sum along the row
(`np.cumsum(t[0, ...], axis=0)` on the `[xsize, 3]` slice) and then takes
the cumulative sum down every column (`np.cumsum(t, axis=0)`). -/

/-- Embedding of `decision_vector_to_tile_coords` (global_optimization.py,
lines 54-72): the decision vector is the function of the grid indices
`i` (row) and `j` (column); first row 0 is cumulatively summed along the
row, then every column is cumulatively summed downwards. -/
def decision_vector_to_tile_coords (x : ℕ → ℕ → Vec3) : ℕ → ℕ → Vec3 :=
  fun i j =>
    ∑ r ∈ Finset.range (i + 1),
      (if r = 0 then ∑ k ∈ Finset.range (j + 1), x 0 k else x r j)

/-- The inverse direction the spec describes: discrete per-axis difference
along the same axes (first down the columns, then along row 0). -/
def tile_coords_to_decision_vector (t : ℕ → ℕ → Vec3) : ℕ → ℕ → Vec3 :=
  fun i j =>
    if i = 0 then
      (t 0 j - (if j = 0 then 0 else t 0 (j - 1)))
    else
      t i j - t (i - 1) j

/-! ## Fitness and champion selection (global_optimization.py)
`TileDisplacementLeastSquares.fitness` reconstructs tile coordinates
from the decision vector, shifts the field by one grid step along each
axis (out-of-range entries become NaN and are zeroed by `nan_to_num`),
subtracts the measured displacement field, and accumulates the
confidence-weighted squared Euclidean norms over both axes. -/

/-- Squared Euclidean norm of a displacement vector, as produced by
`np.linalg.norm(..., axis=-1) ** 2`. -/
def sqnorm3 (v : Vec3) : ℚ := v.1 ^ 2 + v.2.1 ^ 2 + v.2.2 ^ 2

/-- Embedding of `TileDisplacementLeastSquares.fitness`
(global_optimization.py, lines 31-48) on a mosaic of `shape.1` rows and
`shape.2` columns: the sum of the confidence-weighted squared deviations
between the reconstructed one-step displacements and the measured fields
`p_ab_2` (along x) and `p_ab_1` (along y); entries shifted in from
outside the grid contribute zero. -/
def fitness (shape : ℕ × ℕ) (p_ab_1 p_ab_2 : ℕ → ℕ → Vec3)
    (score_1 score_2 : ℕ → ℕ → ℚ) (x : ℕ → ℕ → Vec3) : ℚ :=
  let t := decision_vector_to_tile_coords x
  (∑ i ∈ Finset.range shape.1, ∑ j ∈ Finset.range shape.2,
    (if j + 1 < shape.2
     then score_2 i j * sqnorm3 (t i (j + 1) - t i j - p_ab_2 i j) else 0))
  + (∑ i ∈ Finset.range shape.1, ∑ j ∈ Finset.range shape.2,
    (if i + 1 < shape.1
     then score_1 i j * sqnorm3 (t (i + 1) j - t i j - p_ab_1 i j) else 0))

/-- Embedding of the champion selection loop of
`absolute_position_global_optimization` (global_optimization.py, lines
129-136): start from the first island's champion and keep any strictly
better one. -/
def select_champion (champs : List ((ℕ → ℕ → Vec3) × ℚ)) : (ℕ → ℕ → Vec3) × ℚ :=
  match champs with
  | [] => (fun _ _ => 0, 0)
  | c :: _ => champs.foldl (fun acc cf => if cf.2 < acc.2 then cf else acc) c

/-! ## Chunk partitioning (fuser/fuse_runner.py, run)
The fusion engine computes `n_loops = thickness // n_frames_in_ram`,
emits `n_loops` chunks of `n_frames_in_ram` frames and a final chunk of
`thickness % n_frames_in_ram` frames when that remainder is non-zero;
each chunk covers `[zmin, zmin + thickness)` and `zmin` advances by the
chunk thickness. -/

/-- Embedding of the chunk thickness list built in `FuseRunner.run`
(fuser/fuse_runner.py, lines 89-94): `partial_thickness`. -/
def chunk_thicknesses (T n : ℕ) : List ℕ :=
  List.replicate (T / n) n ++ (if T % n ≠ 0 then [T % n] else [])

/-- The Z interval of each chunk: `zmax = zmin + thickness` and
`zmin += thickness` after each chunk (fuser/fuse_runner.py, lines 101-164). -/
def z_intervals (zmin : ℕ) : List ℕ → List (ℕ × ℕ)
  | [] => []
  | t :: ts => (zmin, zmin + t) :: z_intervals (zmin + t) ts

/-- The output frames written, chunk after chunk, in append order. -/
def chunk_frames (ts : List ℕ) : List ℕ :=
  (z_intervals 0 ts).flatMap (fun p => List.range' p.1 (p.2 - p.1))

/-! ## Tile table loading (filematrix.py) -/

/-- A row of the tile table as loaded (columns X, Y, Z, nfrms, ysize,
xsize, filename of `FileMatrix.data_frame`); the filename key is
modelled as a natural number. -/
structure TileRow where
  X : ℤ
  Y : ℤ
  Z : ℤ
  nfrms : ℤ
  xsize : ℤ
  ysize : ℤ
  filename : ℕ
deriving DecidableEq, Inhabited

/-- A processed row: `process_data_frame` adds the `Z_end` column. -/
structure PTileRow where
  X : ℤ
  Y : ℤ
  Z : ℤ
  nfrms : ℤ
  xsize : ℤ
  ysize : ℤ
  filename : ℕ
  Z_end : ℤ
deriving DecidableEq, Inhabited

/-- Minimum of an integer column (`df[keys].min()`); 0 on the empty table. -/
def col_min (l : List ℤ) : ℤ :=
  match l with
  | [] => 0
  | h :: t => t.foldl min h

/-- Embedding of `FileMatrix.process_data_frame` (filematrix.py, lines
127-150): counts the distinct X and the distinct Y values, errors when
their product differs from the number of rows, and otherwise normalizes
X, Y, Z by the column minimum and adds `Z_end = Z + nfrms`. -/
def process_data_frame (df : List TileRow) : Except String (List PTileRow) :=
  let xsize := (df.map TileRow.X).dedup.length
  let ysize := (df.map TileRow.Y).dedup.length
  if xsize * ysize ≠ df.length then
    Except.error "mosaic size does not match the number of files"
  else
    let mx := col_min (df.map TileRow.X)
    let my := col_min (df.map TileRow.Y)
    let mz := col_min (df.map TileRow.Z)
    Except.ok (df.map fun r =>
      { X := r.X - mx, Y := r.Y - my, Z := r.Z - mz,
        nfrms := r.nfrms, xsize := r.xsize, ysize := r.ysize,
        filename := r.filename, Z_end := (r.Z - mz) + r.nfrms })

/-! ## Connected components of a graph over tile identities
Both `FuseRunner.minimum_spanning_tree` (via networkx Kruskal) and
`FileMatrix.slices` (via networkx connected components) reduce to
maintaining a partition of the vertex set into blocks and merging the
blocks of the two endpoints of each edge processed. Blocks are lists of
vertices; a partition is a list of blocks. -/

/-- The block of the partition containing vertex `v`, when one does. -/
def block_of (P : List (List ℕ)) (v : ℕ) : Option (List ℕ) :=
  P.find? (fun b => decide (v ∈ b))

/-- Whether two vertices currently lie in the same block. -/
def same_block (P : List (List ℕ)) (u v : ℕ) : Bool :=
  match block_of P u with
  | some b => decide (v ∈ b)
  | none => false

/-- Remove the first occurrence of a block from the partition. -/
def erase_block : List (List ℕ) → List ℕ → List (List ℕ)
  | [], _ => []
  | c :: t, b => if c = b then t else c :: erase_block t b

/-- Merge the blocks of `u` and of `v` into one block. -/
def merge_blocks (P : List (List ℕ)) (u v : ℕ) : List (List ℕ) :=
  match block_of P u, block_of P v with
  | some bu, some bv => (bu ++ bv) :: erase_block (erase_block P bu) bv
  | _, _ => P

/-- Process one undirected edge: union the components of its endpoints. -/
def add_edge_blocks (P : List (List ℕ)) (e : ℕ × ℕ) : List (List ℕ) :=
  if same_block P e.1 e.2 then P else merge_blocks P e.1 e.2

/-- The discrete partition: every vertex in its own block. -/
def init_blocks (verts : List ℕ) : List (List ℕ) :=
  verts.map (fun v => [v])

/-- The connected components of the graph on `verts` with `edges`. -/
def components_of (verts : List ℕ) (edges : List (ℕ × ℕ)) : List (List ℕ) :=
  edges.foldl add_edge_blocks (init_blocks verts)

/-! ## Minimum spanning tree (fuse_runner.py, minimum_spanning_tree)
The property builds a graph whose nodes are the `aname` and `bname`
values of the stitch data frame, with one edge per row weighted
`1 - score` and labelled by the row index, and calls
`nx.minimum_spanning_tree`, whose default algorithm is Kruskal: process
the edges by non-decreasing weight (stable sort) and keep every edge
whose endpoints are not yet connected. On a disconnected graph this
returns a spanning forest; no error is raised anywhere. -/

/-- A row of the pairwise-registration data frame (stitch.json): tile
identities `aname` and `bname`, the axis tag (1 = along Y, 2 = along X),
the measured displacement fields `dx`, `dy`, `dz` and the confidence
`score`. Tile identities (filenames) are modelled as naturals. -/
structure StitchRow where
  aname : ℕ
  bname : ℕ
  axis : ℕ
  dx : ℚ
  dy : ℚ
  dz : ℚ
  score : ℚ
deriving DecidableEq, Inhabited

/-- A weighted labelled edge of the overlap graph. -/
structure MEdge where
  u : ℕ
  v : ℕ
  w : ℚ
  label : ℕ
deriving DecidableEq, Inhabited

/-- Add a graph node, keeping the first-insertion order (networkx
`add_node` is idempotent). -/
def insert_node (l : List ℕ) (v : ℕ) : List ℕ :=
  if v ∈ l then l else l ++ [v]

/-- The nodes of the overlap graph: `aname` then `bname` of each row,
in row order (fuse_runner.py, lines 122-124). -/
def graph_vertices (df : List StitchRow) : List ℕ :=
  df.foldl (fun l r => insert_node (insert_node l r.aname) r.bname) []

/-- The edges of the overlap graph: one per row, weight `1 - score`,
labelled with the row index (fuse_runner.py, lines 126-128). -/
def graph_edges (df : List StitchRow) : List MEdge :=
  df.enum.map (fun p =>
    { u := p.2.aname, v := p.2.bname, w := 1 - p.2.score, label := p.1 })

/-- Stable sort of the edges by non-decreasing weight, as Kruskal sorts. -/
def sort_by_weight (es : List MEdge) : List MEdge :=
  List.insertionSort (fun e f => e.w ≤ f.w) es

/-- One Kruskal step on (partition of the vertices, kept edges). -/
def kruskal_step (acc : List (List ℕ) × List MEdge) (e : MEdge) :
    List (List ℕ) × List MEdge :=
  if same_block acc.1 e.u e.v then acc
  else (merge_blocks acc.1 e.u e.v, acc.2 ++ [e])

/-- Embedding of the `minimum_spanning_tree` property (fuse_runner.py,
lines 118-131): Kruskal over the overlap graph; the kept edges form a
minimum spanning forest. -/
def minimum_spanning_tree (df : List StitchRow) : List MEdge :=
  ((sort_by_weight (graph_edges df)).foldl kruskal_step
    (init_blocks (graph_vertices df), [])).2

/-- Undirected reachability through a list of edges. -/
inductive Reaches (es : List MEdge) : ℕ → ℕ → Prop
  | refl (v : ℕ) : Reaches es v v
  | step {a b c : ℕ} (e : MEdge) (he : e ∈ es)
      (hab : (e.u = a ∧ e.v = b) ∨ (e.u = b ∧ e.v = a)) :
      Reaches es b c → Reaches es a c

/-- Two vertices lie in one common block of the partition. -/
def InSame (P : List (List ℕ)) (x y : ℕ) : Prop :=
  ∃ b ∈ P, x ∈ b ∧ y ∈ b

/-! ## Absolute positions (fuse_runner.py, _compute_absolute_positions) -/

/-- A row of the tile table as the fuse runner sees it, indexed by
filename (modelled as a natural number). -/
structure FmRow where
  filename : ℕ
  X : ℤ
  Y : ℤ
  Z : ℤ
  xsize : ℤ
  ysize : ℤ
  nfrms : ℤ
deriving DecidableEq, Inhabited

/-- Neighbors of `v` in the spanning tree, paired with the edge label. -/
def tree_neighbors (T : List MEdge) (v : ℕ) : List (ℕ × ℕ) :=
  T.filterMap (fun e =>
    if e.u = v then some (e.v, e.label)
    else if e.v = v then some (e.u, e.label) else none)

/-- Depth-first traversal from `v` (as `nx.dfs_edges`), producing the
traversed edges as (parent, child, label) triples together with the
visited set; `fuel` bounds the recursion depth. -/
def dfs_go (T : List MEdge) : ℕ → ℕ → List ℕ → List ℕ × List (ℕ × ℕ × ℕ)
  | 0, _, visited => (visited, [])
  | fuel + 1, v, visited =>
    (tree_neighbors T v).foldl
      (fun (acc : List ℕ × List (ℕ × ℕ × ℕ)) nb =>
        if nb.1 ∈ acc.1 then acc
        else
          let r := dfs_go T fuel nb.1 (nb.1 :: acc.1)
          (r.1, acc.2 ++ (v, nb.1, nb.2) :: r.2))
      (visited, [])

/-- The depth-first edge sequence of the tree from the root. -/
def dfs_edges (T : List MEdge) (root : ℕ) : List (ℕ × ℕ × ℕ) :=
  (dfs_go T (T.length + 1) root [root]).2

/-- The row of the tile table with the given filename. -/
def fm_row (fm : List FmRow) (name : ℕ) : FmRow :=
  (fm.find? (fun r => r.filename == name)).getD default

/-- np.rint: round half to even. -/
def rint (q : ℚ) : ℤ :=
  let f := Rat.floor q
  let r := q - (f : ℚ)
  if r < 1 / 2 then f
  else if 1 / 2 < r then f + 1
  else if f % 2 = 0 then f else f + 1

/-- Minimum of a rational column; 0 on the empty table. -/
def col_min_q (l : List ℚ) : ℚ :=
  match l with
  | [] => 0
  | h :: t => t.foldl min h

/-- The boolean tile-ordering attributes a FileMatrix defines
(filematrix.py, lines 49-59): `ascending_tiles_x` and
`ascending_tiles_y`, both true by default. -/
structure FileMatrixAttrs where
  ascending_tiles_x : Bool
  ascending_tiles_y : Bool
deriving DecidableEq, Inhabited

/-- The message of the uncaught Python AttributeError raised when an
attribute missing from a FileMatrix instance is read. -/
def attribute_error (name : String) : String :=
  "AttributeError: FileMatrix object has no attribute " ++ name

/-- Python attribute lookup on a FileMatrix: only the lowercase
`ascending_tiles_x` / `ascending_tiles_y` exist (filematrix.py, lines
58-59); reading any other name raises an AttributeError. -/
def fm_getattr (attrs : FileMatrixAttrs) (name : String) : Except String Bool :=
  if name = "ascending_tiles_x" then Except.ok attrs.ascending_tiles_x
  else if name = "ascending_tiles_y" then Except.ok attrs.ascending_tiles_y
  else Except.error (attribute_error name)

/-- The FileMatrix flags as constructed by the fuse pipeline: FileMatrix
defaults, both flags true (filematrix.py, lines 49-50). -/
def file_matrix_attrs : FileMatrixAttrs :=
  { ascending_tiles_x := true, ascending_tiles_y := true }

/-- Propagate the absolute position along one traversed tree edge
(fuse_runner.py, lines 50-83); positions are (Xs, Ys, Zs) triples. For
an along-X edge (axis = 2) the roles of the X and Y position columns
swap: the measured `dy` is subtracted from the child's `xsize` and `dx`
shifts the perpendicular axis; for any other axis tag the measured `dy`
is subtracted from the child's `ysize`. The tile-ordering sign reads
`self.fm.ascending_tiles_X` (line 59) or `self.fm.ascending_tiles_Y`
(line 67); neither attribute exists on a FileMatrix, so either read
raises an uncaught AttributeError and the edge is never applied. -/
def propagate (fm : List FmRow) (df : List StitchRow)
    (attrs : FileMatrixAttrs) (pos : ℕ → ℚ × ℚ × ℚ) (edge : ℕ × ℕ × ℕ) :
    Except String (ℕ → ℚ × ℚ × ℚ) :=
  let p := edge.1
  let c := edge.2.1
  let m := df.getD edge.2.2 default
  let rp := fm_row fm p
  let rc := fm_row fm c
  let pp := pos p
  let sign_z : ℚ := if rp.Z ≤ rc.Z then 1 else -1
  if m.axis = 2 then
    match fm_getattr attrs "ascending_tiles_X" with
    | Except.error msg => Except.error msg
    | Except.ok asc =>
      let sign_y : ℚ := (if rp.X ≤ rc.X then 1 else -1) * (if asc then 1 else -1)
      let newpos := (pp.1 + sign_y * ((rc.xsize : ℚ) - m.dy), pp.2.1 + m.dx,
        pp.2.2 + sign_z * m.dz)
      Except.ok (fun n => if n = c then newpos else pos n)
  else
    match fm_getattr attrs "ascending_tiles_Y" with
    | Except.error msg => Except.error msg
    | Except.ok asc =>
      let sign_y : ℚ := (if rp.Y ≤ rc.Y then 1 else -1) * (if asc then 1 else -1)
      let newpos := (pp.1 + m.dx, pp.2.1 + sign_y * ((rc.ysize : ℚ) - m.dy),
        pp.2.2 + sign_z * m.dz)
      Except.ok (fun n => if n = c then newpos else pos n)

/-- The edge loop of `_compute_absolute_positions`: the first edge that
raises aborts the run. -/
def propagate_all (fm : List FmRow) (df : List StitchRow)
    (attrs : FileMatrixAttrs) :
    List (ℕ × ℕ × ℕ) → (ℕ → ℚ × ℚ × ℚ) → Except String (ℕ → ℚ × ℚ × ℚ)
  | [], pos => Except.ok pos
  | e :: es, pos =>
    match propagate fm df attrs pos e with
    | Except.error msg => Except.error msg
    | Except.ok pos2 => propagate_all fm df attrs es pos2

/-- Embedding of `_compute_absolute_positions` (fuse_runner.py, lines
42-87): initialize every position at zero, traverse the minimum
spanning tree depth-first from the first tile of the table and
propagate along every traversed edge; an AttributeError raised while an
edge is processed aborts the run uncaught. Only when every edge was
processed (in particular when there is none to traverse) are the
positions normalized by the per-axis minimum and rounded to the nearest
integer (np.rint, half to even). -/
def absolute_positions (fm : List FmRow) (df : List StitchRow)
    (attrs : FileMatrixAttrs) : Except String (List (ℕ × ℤ × ℤ × ℤ)) :=
  let T := minimum_spanning_tree df
  let root := (fm.headD default).filename
  let edges := dfs_edges T root
  match propagate_all fm df attrs edges (fun _ => (0, 0, 0)) with
  | Except.error msg => Except.error msg
  | Except.ok pos =>
    let mx := col_min_q (fm.map (fun r => (pos r.filename).1))
    let my := col_min_q (fm.map (fun r => (pos r.filename).2.1))
    let mz := col_min_q (fm.map (fun r => (pos r.filename).2.2))
    Except.ok (fm.map (fun r =>
      (r.filename,
        rint ((pos r.filename).1 - mx),
        rint ((pos r.filename).2.1 - my),
        rint ((pos r.filename).2.2 - mz))))

/-- Position of a tile in the computed table. -/
def pos_of (posl : List (ℕ × ℤ × ℤ × ℤ)) (name : ℕ) : ℤ × ℤ × ℤ :=
  ((posl.find? (fun p => p.1 == name)).getD (0, 0, 0, 0)).2

/-- Maximum of an integer column; 0 on the empty table. -/
def col_max (l : List ℤ) : ℤ :=
  match l with
  | [] => 0
  | h :: t => t.foldl max h

/-- `full_width` (filematrix.py, lines 266-268): the maximum of the
`Xs_end = Xs + xsize` column (the end columns as set by
process_data_frame and absolute_position_global_optimization). -/
def full_width (fm : List FmRow) (posl : List (ℕ × ℤ × ℤ × ℤ)) : ℤ :=
  col_max (fm.map (fun r => (pos_of posl r.filename).1 + r.xsize))

/-- `full_height` (filematrix.py, lines 270-272): maximum of
`Ys_end = Ys + ysize`. -/
def full_height (fm : List FmRow) (posl : List (ℕ × ℤ × ℤ × ℤ)) : ℤ :=
  col_max (fm.map (fun r => (pos_of posl r.filename).2.1 + r.ysize))

/-- `full_thickness` (filematrix.py, lines 274-276): maximum of
`Zs_end = Zs + nfrms`. -/
def full_thickness (fm : List FmRow) (posl : List (ℕ × ℤ × ℤ × ℤ)) : ℤ :=
  col_max (fm.map (fun r => (pos_of posl r.filename).2.2 + r.nfrms))

/-! ## The 2-by-2 end-to-end scenario -/

/-- The 2-by-2 scenario tile table: tiles 0..3 at grid positions (X, Y)
ranging over pairs of 0 and 1, each 100 by 100 pixels and 5 frames,
sorted by (Z, Y, X) as load_dir sorts. -/
def scenario_fm : List FmRow :=
  [ { filename := 0, X := 0, Y := 0, Z := 0, xsize := 100, ysize := 100, nfrms := 5 },
    { filename := 1, X := 1, Y := 0, Z := 0, xsize := 100, ysize := 100, nfrms := 5 },
    { filename := 2, X := 0, Y := 1, Z := 0, xsize := 100, ysize := 100, nfrms := 5 },
    { filename := 3, X := 1, Y := 1, Z := 0, xsize := 100, ysize := 100, nfrms := 5 } ]

/-- The claim's measurement fields read literally: the along-X pairs
(axis = 2) carry their 20-pixel shift in the `dx` field and `dy = 0`. -/
def scenario_df_literal : List StitchRow :=
  [ { aname := 0, bname := 1, axis := 2, dx := 20, dy := 0, dz := 0, score := 1 },
    { aname := 2, bname := 3, axis := 2, dx := 20, dy := 0, dz := 0, score := 1 },
    { aname := 0, bname := 2, axis := 1, dx := 0, dy := 20, dz := 0, score := 1 },
    { aname := 1, bname := 3, axis := 1, dx := 0, dy := 20, dz := 0, score := 1 } ]

/-- The same measurements in the code's field convention: `dy` always
holds the shift along the pair's axis and `dx` the lateral shift, so a
20-pixel overlap along X between adjacent columns is the row
(axis = 2, dx = 0, dy = 20). -/
def scenario_df_conv : List StitchRow :=
  [ { aname := 0, bname := 1, axis := 2, dx := 0, dy := 20, dz := 0, score := 1 },
    { aname := 2, bname := 3, axis := 2, dx := 0, dy := 20, dz := 0, score := 1 },
    { aname := 0, bname := 2, axis := 1, dx := 0, dy := 20, dz := 0, score := 1 },
    { aname := 1, bname := 3, axis := 1, dx := 0, dy := 20, dz := 0, score := 1 } ]

/-- Two measurement rows over four tiles, pairing tile 0 with 1 and
tile 2 with 3 only: a disconnected overlap graph. -/
def disconnected_df : List StitchRow :=
  [ { aname := 0, bname := 1, axis := 2, dx := 0, dy := 20, dz := 0, score := 1 },
    { aname := 2, bname := 3, axis := 1, dx := 0, dy := 20, dz := 0, score := 1 } ]

/-- A single along-Y measurement between two tiles (a connected graph). -/
def two_tile_df : List StitchRow :=
  [ { aname := 0, bname := 1, axis := 1, dx := 0, dy := 20, dz := 0, score := 1 } ]

/-- The two-tile table matching `two_tile_df`: one column, two rows. -/
def two_tile_fm : List FmRow :=
  [ { filename := 0, X := 0, Y := 0, Z := 0, xsize := 100, ysize := 100, nfrms := 5 },
    { filename := 1, X := 0, Y := 1, Z := 0, xsize := 100, ysize := 100, nfrms := 5 } ]

/-! ## Slices (filematrix.py, slices) -/

/-- The tiles whose Z interval contains the given row's interval, in
table order: `df[(df.Z <= row.Z) & (df.Z_end >= row.Z_end)]`, as a list
of filenames (the data frame index). -/
def containing_view (df : List PTileRow) (row : PTileRow) : List ℕ :=
  (df.filter (fun s => decide (s.Z ≤ row.Z) && decide (row.Z_end ≤ s.Z_end))).map
    (fun s => s.filename)

/-- The edges one row contributes to the slice graph: consecutive pairs
of its view plus the (first, last) edge. -/
def view_pairs (l : List ℕ) : List (ℕ × ℕ) :=
  match l with
  | [] => []
  | h :: t => (h :: t).zip t ++ [(h, (h :: t).getLastD 0)]

/-- Embedding of the `slices` property (filematrix.py, lines 185-208):
one node per tile, the edges of every row's containment view, and the
connected components of the resulting graph. -/
def slices (df : List PTileRow) : List (List ℕ) :=
  components_of (df.map (fun r => r.filename))
    (df.flatMap (fun row => view_pairs (containing_view df row)))

/-! ## Blending (fuse_runner.py, _fuse)
`_fuse(a_roi, b_roi, dest)` first checks
`a_roi.shape != b_roi.shape or a_roi.shape != dest.shape` and raises a
ValueError on mismatch, leaving `dest` untouched. Otherwise it builds
`rad = np.linspace(0, pi, output_height)` over `output_height =
a_roi.shape[1]`, the weight `alpha = (cos(rad) + 1) / 2` (constant along
width after tile/reshape/transpose), and writes
`dest[:] = a_roi * alpha + b_roi * (1 - alpha)`. -/

/-- A region of interest: a 3-dimensional array with shape
(planes, height, width) and real-valued pixels. -/
structure Roi where
  shape : ℕ × ℕ × ℕ
  data : ℕ → ℕ → ℕ → ℝ

/-- The blending weight at row `i` of an overlap of height `height`:
`(cos θ + 1) / 2` with `θ = π i / (height - 1)`, the i-th point of
`np.linspace(0, π, height)`. -/
noncomputable def alpha_weight (height i : ℕ) : ℝ :=
  (Real.cos (Real.pi * i / ((height - 1 : ℕ) : ℝ)) + 1) / 2

/-- The blended pixel values `a_roi * alpha + b_roi * (1 - alpha)`; the
weight varies along axis 1 (the height axis) of the 3-dimensional region. -/
noncomputable def blend (a b : Roi) : ℕ → ℕ → ℕ → ℝ :=
  fun z y x =>
    a.data z y x * alpha_weight a.shape.2.1 y
      + b.data z y x * (1 - alpha_weight a.shape.2.1 y)

/-- Embedding of `FuseRunner._fuse` (fuse_runner.py, lines 89-116): the
result of the shape check paired with the final state of the destination
buffer (unchanged when the check raises). -/
noncomputable def fuse_rois (a b dest : Roi) : Except String Unit × Roi :=
  if a.shape ≠ b.shape ∨ a.shape ≠ dest.shape then
    (Except.error "ROI shapes must be equal", dest)
  else
    (Except.ok (), { shape := dest.shape, data := blend a b })

/-- A concrete all-zero region of interest, for the C10 witness. -/
def roi_zero : Roi := { shape := (1, 1, 1), data := fun _ _ _ => 0 }

/-- Every block of the running partition is connected through the kept
edges. -/
def BlocksConn (P : List (List ℕ)) (kept : List MEdge) : Prop :=
  ∀ b ∈ P, ∀ x ∈ b, ∀ y ∈ b, Reaches kept x y

/-- A one-tile table, for the C8 witness. -/
def one_tile_table : List PTileRow :=
  [{ X := 0, Y := 0, Z := 0, nfrms := 5, xsize := 100, ysize := 100,
     filename := 0, Z_end := 5 }]

/-! ## Theorems and supporting lemmas -/

/-- Helper: the champion selection loop returns an element of the list. -/
theorem select_champion_mem (champs : List ((ℕ → ℕ → Vec3) × ℚ))
    (h : champs ≠ []) : select_champion champs ∈ champs := by
  have key : ∀ (l : List ((ℕ → ℕ → Vec3) × ℚ)) (acc : (ℕ → ℕ → Vec3) × ℚ),
      l.foldl (fun acc cf => if cf.2 < acc.2 then cf else acc) acc = acc ∨
      l.foldl (fun acc cf => if cf.2 < acc.2 then cf else acc) acc ∈ l := by
    intro l
    induction l with
    | nil => intro acc; exact Or.inl rfl
    | cons c t ih =>
      intro acc
      rcases ih (if c.2 < acc.2 then c else acc) with h1 | h1
      · rw [List.foldl_cons, h1]
        by_cases hc : c.2 < acc.2
        · rw [if_pos hc]; exact Or.inr (List.mem_cons_self c t)
        · rw [if_neg hc]; exact Or.inl rfl
      · rw [List.foldl_cons]
        exact Or.inr (List.mem_cons_of_mem c h1)
  cases champs with
  | nil => exact absurd rfl h
  | cons c rest =>
    have hs : select_champion (c :: rest)
        = (c :: rest).foldl (fun acc cf => if cf.2 < acc.2 then cf else acc) c := rfl
    rw [hs]
    rcases key (c :: rest) c with h1 | h1
    · rw [h1]; exact List.mem_cons_self c rest
    · exact h1

/-- Consecutive chunk intervals cover exactly the frames from the start
offset through the sum of the thicknesses. -/
theorem z_intervals_frames (ts : List ℕ) :
    ∀ zmin, (z_intervals zmin ts).flatMap (fun p => List.range' p.1 (p.2 - p.1))
      = List.range' zmin ts.sum := by
  induction ts with
  | nil => intro zmin; simp [z_intervals]
  | cons t ts ih =>
    intro zmin
    simp only [z_intervals, List.flatMap_cons, ih (zmin + t)]
    rw [Nat.add_sub_cancel_left, List.sum_cons]
    simpa [Nat.add_comm] using List.range'_append zmin t ts.sum 1

/-- The frames written by a chunk thickness list are the first
`(sum of the thicknesses)` frames in order. -/
theorem chunk_frames_eq_range_sum (ts : List ℕ) :
    chunk_frames ts = List.range ts.sum := by
  rw [chunk_frames, z_intervals_frames ts 0, List.range_eq_range']

/-- C1: round-trip law of the decision vector. Reconstructing absolute
tile coordinates with `decision_vector_to_tile_coords` (cumulative sum
along row 0, then cumulative sum down every column) and then taking the
discrete per-axis difference along the same axes reproduces the decision
vector exactly, at every grid index. -/
theorem decision_vector_round_trip (x : ℕ → ℕ → Vec3) (i j : ℕ) :
    tile_coords_to_decision_vector (decision_vector_to_tile_coords x) i j = x i j := by
  unfold tile_coords_to_decision_vector decision_vector_to_tile_coords
  rcases Nat.eq_zero_or_pos i with hi | hi
  · subst hi
    simp only [if_pos rfl]
    rcases Nat.eq_zero_or_pos j with hj | hj
    · subst hj
      simp [Finset.sum_range_succ]
    · have hj0 : j ≠ 0 := Nat.pos_iff_ne_zero.mp hj
      have hj1 : j - 1 + 1 = j := Nat.succ_pred_eq_of_pos hj
      rw [if_neg hj0, Finset.sum_range_one, Finset.sum_range_one,
        if_pos rfl, if_pos rfl, hj1, Finset.sum_range_succ]
      exact add_sub_cancel_left _ _
  · have hi0 : i ≠ 0 := Nat.pos_iff_ne_zero.mp hi
    have hi1 : i - 1 + 1 = i := Nat.succ_pred_eq_of_pos hi
    rw [if_neg hi0, hi1, Finset.sum_range_succ, if_neg hi0]
    exact add_sub_cancel_left _ _

/-- C6: chunk partitioning. For a total output thickness `T ≥ 1` and a
per-chunk frame budget `n ≥ 1`, the chunk thickness list is `T / n`
chunks of thickness `n` followed by one chunk of `T % n` frames when the
remainder is non-zero, the thicknesses sum to `T`, and the chunks cover
the frames `0, 1, ..., T - 1` consecutively in append order with no
frame duplicated or skipped. -/
theorem chunk_partitioning (T n : ℕ) (hT : 1 ≤ T) (hn : 1 ≤ n) :
    chunk_thicknesses T n
      = List.replicate (T / n) n ++ (if T % n ≠ 0 then [T % n] else []) ∧
    (chunk_thicknesses T n).sum = T ∧
    chunk_frames (chunk_thicknesses T n) = List.range T := by
  have hsum : (chunk_thicknesses T n).sum = T := by
    unfold chunk_thicknesses
    rcases Nat.eq_zero_or_pos (T % n) with h | h
    · rw [if_neg (by omega), List.append_nil, List.sum_replicate, smul_eq_mul]
      exact Nat.div_mul_cancel (Nat.dvd_of_mod_eq_zero h)
    · rw [if_pos (by omega), List.sum_append, List.sum_replicate, smul_eq_mul]
      simp only [List.sum_cons, List.sum_nil, add_zero]
      rw [Nat.mul_comm]
      exact Nat.div_add_mod T n
  exact ⟨rfl, hsum, by rw [chunk_frames_eq_range_sum, hsum]⟩

/-- Witness for C6 at the spec scenario: budget 3 frames per chunk and
total thickness 7 give exactly the chunks [3, 3, 1]. -/
theorem chunk_partitioning_witness :
    chunk_thicknesses 7 3 = [3, 3, 1] ∧
    (chunk_thicknesses 7 3).sum = 7 ∧
    chunk_frames (chunk_thicknesses 7 3) = List.range 7 :=
  ⟨by decide, (chunk_partitioning 7 3 (by decide) (by decide)).2⟩

/-- C3: loading a tile table raises the incomplete-mosaic error if and
only if the tile count differs from the product of the number of
distinct X values and the number of distinct Y values; the error is
raised before any positional processing (nothing is produced), and when
the product equals the tile count no error is raised. -/
theorem incomplete_mosaic_check (df : List TileRow) :
    (∃ msg, process_data_frame df = Except.error msg) ↔
      (df.map TileRow.X).toFinset.card * (df.map TileRow.Y).toFinset.card
        ≠ df.length := by
  unfold process_data_frame
  rw [List.card_toFinset, List.card_toFinset]
  by_cases h :
      (df.map TileRow.X).dedup.length * (df.map TileRow.Y).dedup.length ≠ df.length
  · simp only [if_pos h]
    exact ⟨fun _ => h, fun _ => ⟨_, rfl⟩⟩
  · simp only [if_neg h]
    constructor
    · rintro ⟨msg, hmsg⟩
      cases hmsg
    · intro hc
      exact absurd hc h

/-- Helper: the blending weight always lies in the unit interval. -/
theorem alpha_weight_mem_unit (height i : ℕ) :
    0 ≤ alpha_weight height i ∧ alpha_weight height i ≤ 1 := by
  unfold alpha_weight
  have h1 := Real.neg_one_le_cos (Real.pi * i / ((height - 1 : ℕ) : ℝ))
  have h2 := Real.cos_le_one (Real.pi * i / ((height - 1 : ℕ) : ℝ))
  constructor <;> nlinarith

/-- C4: for an overlap of height `n ≥ 2`, the blending weight sequence is
1 at the first row, 0 at the last row, monotonically non-increasing
across rows, symmetric about the midpoint (`alpha i + alpha (n-1-i) = 1`,
so the midpoint weight is one half), and the destination is
`a_roi * alpha + b_roi * (1 - alpha)` with the raised-cosine ramp
`(cos θ + 1) / 2` for `θ` evenly spaced over `[0, π]`. -/
theorem blending_ramp (n : ℕ) (hn : 2 ≤ n) :
    alpha_weight n 0 = 1 ∧
    alpha_weight n (n - 1) = 0 ∧
    (∀ i j : ℕ, i ≤ j → j ≤ n - 1 → alpha_weight n j ≤ alpha_weight n i) ∧
    (∀ i : ℕ, i ≤ n - 1 → alpha_weight n i + alpha_weight n (n - 1 - i) = 1) ∧
    (∀ a b : Roi, ∀ z y x : ℕ,
      blend a b z y x = a.data z y x * alpha_weight a.shape.2.1 y
        + b.data z y x * (1 - alpha_weight a.shape.2.1 y)) := by
  have hd : 0 < n - 1 := by omega
  have hd0 : (0 : ℝ) < ((n - 1 : ℕ) : ℝ) := by exact_mod_cast hd
  refine ⟨?_, ?_, ?_, ?_, fun a b z y x => rfl⟩
  · simp [alpha_weight]
  · unfold alpha_weight
    rw [mul_div_assoc, div_self (ne_of_gt hd0), mul_one, Real.cos_pi]
    norm_num
  · intro i j hij hjd
    unfold alpha_weight
    have hcos : Real.cos (Real.pi * j / ((n - 1 : ℕ) : ℝ))
        ≤ Real.cos (Real.pi * i / ((n - 1 : ℕ) : ℝ)) := by
      apply Real.cos_le_cos_of_nonneg_of_le_pi
      · positivity
      · rw [div_le_iff hd0]
        have : (j : ℝ) ≤ ((n - 1 : ℕ) : ℝ) := by exact_mod_cast hjd
        nlinarith [Real.pi_pos]
      · have hij' : (i : ℝ) ≤ (j : ℝ) := by exact_mod_cast hij
        gcongr
    linarith
  · intro i hid
    unfold alpha_weight
    have hcast : ((n - 1 - i : ℕ) : ℝ) = ((n - 1 : ℕ) : ℝ) - (i : ℝ) := by
      have : (n - 1 - i) + i = n - 1 := by omega
      have h2 : ((n - 1 - i : ℕ) : ℝ) + (i : ℝ) = ((n - 1 : ℕ) : ℝ) := by
        exact_mod_cast congrArg (fun k : ℕ => (k : ℝ)) this
      linarith
    have hθ : Real.pi * ((n - 1 - i : ℕ) : ℝ) / ((n - 1 : ℕ) : ℝ)
        = Real.pi - Real.pi * (i : ℝ) / ((n - 1 : ℕ) : ℝ) := by
      rw [hcast, mul_sub, sub_div, mul_div_cancel_right₀ _ (ne_of_gt hd0)]
    rw [hθ, Real.cos_pi_sub]
    ring

/-- Witness for C4 at the concrete overlap height 2: the weight at the
first row is 1. -/
theorem blending_ramp_witness : alpha_weight 2 0 = 1 :=
  (blending_ramp 2 (by norm_num)).1

/-- C9: the blending step raises the fatal shape-mismatch error exactly
when the three region shapes are not all equal, and when it raises the
destination buffer is left unchanged (otherwise the destination holds
the blended values). -/
theorem fuse_shape_check (a b dest : Roi) :
    ((fuse_rois a b dest).1 = Except.error "ROI shapes must be equal"
        ↔ ¬ (a.shape = b.shape ∧ a.shape = dest.shape)) ∧
    (fuse_rois a b dest).2
      = (if a.shape = b.shape ∧ a.shape = dest.shape
         then { shape := dest.shape, data := blend a b } else dest) := by
  unfold fuse_rois
  by_cases h : a.shape = b.shape ∧ a.shape = dest.shape
  · obtain ⟨h1, h2⟩ := h
    rw [if_neg (by push_neg; exact ⟨h1, h2⟩), if_pos ⟨h1, h2⟩]
    simp [h1, h2, h1.symm.trans h2]
  · have hcond : a.shape ≠ b.shape ∨ a.shape ≠ dest.shape := by tauto
    rw [if_pos hcond, if_neg h]
    simp [h]

/-- C10: no-overshoot invariant of blending. When the region shapes all
match, every destination pixel written by the blending step lies between
the minimum and the maximum of the two corresponding input pixels (the
output is an elementwise convex combination, every blending weight lying
in the unit interval). -/
theorem fuse_no_overshoot (a b dest : Roi)
    (hab : a.shape = b.shape) (had : a.shape = dest.shape) :
    ∀ z y x : ℕ,
      min (a.data z y x) (b.data z y x) ≤ (fuse_rois a b dest).2.data z y x ∧
      (fuse_rois a b dest).2.data z y x ≤ max (a.data z y x) (b.data z y x) := by
  intro z y x
  have hres : (fuse_rois a b dest).2.data z y x = blend a b z y x := by
    unfold fuse_rois
    rw [if_neg (by push_neg; exact ⟨hab, had⟩)]
  rw [hres]
  unfold blend
  obtain ⟨h0, h1⟩ := alpha_weight_mem_unit a.shape.2.1 y
  set α := alpha_weight a.shape.2.1 y with hα
  set p := a.data z y x with hp
  set q := b.data z y x with hq
  have h1' : (0 : ℝ) ≤ 1 - α := by linarith
  constructor
  · nlinarith [mul_nonneg (sub_nonneg.mpr (min_le_left p q)) h0,
      mul_nonneg (sub_nonneg.mpr (min_le_right p q)) h1']
  · nlinarith [mul_nonneg (sub_nonneg.mpr (le_max_left p q)) h0,
      mul_nonneg (sub_nonneg.mpr (le_max_right p q)) h1']

/-- Witness for C10 at concrete equal-shaped regions. -/
theorem fuse_no_overshoot_witness :
    min (roi_zero.data 0 0 0) (roi_zero.data 0 0 0)
      ≤ (fuse_rois roi_zero roi_zero roi_zero).2.data 0 0 0 :=
  (fuse_no_overshoot roi_zero roi_zero roi_zero rfl rfl 0 0 0).1

/-- C7: the fitness of the champion decision vector selected across the
optimizer ensemble is never worse than the fitness of the MST-derived
initial decision vector `x0`. The ensemble itself is the external
stochastic optimizer (pygmo): each island starts from the one-member
population holding `x0` and, by the population-champion contract of the
library, reports a champion whose true fitness does not exceed the
fitness of any initial member; the selection loop of the source then
returns the best reported champion. -/
theorem champion_fitness_not_worse (shape : ℕ × ℕ)
    (p_ab_1 p_ab_2 : ℕ → ℕ → Vec3) (score_1 score_2 : ℕ → ℕ → ℚ)
    (x0 : ℕ → ℕ → Vec3) (champs : List ((ℕ → ℕ → Vec3) × ℚ))
    (hrows : 2 ≤ shape.1) (hcols : 2 ≤ shape.2)
    (hne : champs ≠ [])
    (htrue : ∀ c ∈ champs,
      c.2 = fitness shape p_ab_1 p_ab_2 score_1 score_2 c.1)
    (hinit : ∀ c ∈ champs,
      c.2 ≤ fitness shape p_ab_1 p_ab_2 score_1 score_2 x0) :
    fitness shape p_ab_1 p_ab_2 score_1 score_2 (select_champion champs).1
      ≤ fitness shape p_ab_1 p_ab_2 score_1 score_2 x0 := by
  have hm := select_champion_mem champs hne
  have h1 := htrue _ hm
  have h2 := hinit _ hm
  rw [← h1]
  exact h2

/-- Witness for C7: one island whose champion is the initial vector
itself, on a 2-by-2 mosaic with zero measurements. -/
theorem champion_fitness_not_worse_witness :
    fitness (2, 2) (fun _ _ => 0) (fun _ _ => 0) (fun _ _ => 0) (fun _ _ => 0)
        (select_champion [((fun _ _ => (0 : Vec3)),
          fitness (2, 2) (fun _ _ => 0) (fun _ _ => 0) (fun _ _ => 0)
            (fun _ _ => 0) (fun _ _ => 0))]).1
      ≤ fitness (2, 2) (fun _ _ => 0) (fun _ _ => 0) (fun _ _ => 0)
          (fun _ _ => 0) (fun _ _ => 0) :=
  champion_fitness_not_worse (2, 2) (fun _ _ => 0) (fun _ _ => 0)
    (fun _ _ => 0) (fun _ _ => 0) (fun _ _ => 0)
    [((fun _ _ => (0 : Vec3)),
      fitness (2, 2) (fun _ _ => 0) (fun _ _ => 0) (fun _ _ => 0)
        (fun _ _ => 0) (fun _ _ => 0))]
    (by norm_num) (by norm_num) (by simp)
    (by
      intro c hc
      rw [List.mem_singleton] at hc
      rw [hc])
    (by
      intro c hc
      rw [List.mem_singleton] at hc
      rw [hc])

/-- Removing a member block leaves a permutation with the block in front. -/
theorem perm_cons_erase_block {P : List (List ℕ)} {b : List ℕ}
    (h : b ∈ P) : P.Perm (b :: erase_block P b) := by
  induction P with
  | nil => cases h
  | cons c t ih =>
    by_cases hc : c = b
    · subst hc
      rw [erase_block, if_pos rfl]
    · rcases List.mem_cons.mp h with rfl | ht
      · exact absurd rfl hc
      · rw [erase_block, if_neg hc]
        exact ((ih ht).cons c).trans (List.Perm.swap b c _)

/-- Membership in the erased partition, for a block other than the
erased one. -/
theorem mem_erase_block_of_ne {P : List (List ℕ)} {a b : List ℕ}
    (hab : a ≠ b) : a ∈ erase_block P b ↔ a ∈ P := by
  induction P with
  | nil => simp [erase_block]
  | cons c t ih =>
    rw [erase_block]
    by_cases hc : c = b
    · rw [if_pos hc]
      subst hc
      simp [hab, List.mem_cons]
    · rw [if_neg hc]
      simp [List.mem_cons, ih]

/-- A member of the erased partition is a member of the partition. -/
theorem mem_of_mem_erase_block {P : List (List ℕ)} {a b : List ℕ}
    (h : a ∈ erase_block P b) : a ∈ P := by
  by_cases hab : a = b
  · subst hab
    induction P with
    | nil => simpa [erase_block] using h
    | cons c t ih =>
      rw [erase_block] at h
      by_cases hc : c = a
      · rw [if_pos hc] at h
        exact List.mem_cons_of_mem c h
      · rw [if_neg hc] at h
        rcases List.mem_cons.mp h with rfl | ht
        · exact List.mem_cons_self _ _
        · exact List.mem_cons_of_mem c (ih ht)
  · exact (mem_erase_block_of_ne hab).mp h

/-- A found block is a member of the partition and contains the vertex. -/
theorem block_of_mem {P : List (List ℕ)} {v : ℕ} {b : List ℕ}
    (h : block_of P v = some b) : b ∈ P ∧ v ∈ b := by
  rw [block_of] at h
  refine ⟨List.mem_of_find?_eq_some h, ?_⟩
  have h1 := List.find?_some h
  simpa using h1

/-- A vertex of the carrier has a block. -/
theorem block_of_isSome {P : List (List ℕ)} {v : ℕ} (h : v ∈ P.flatten) :
    ∃ b, block_of P v = some b := by
  obtain ⟨b, hbP, hvb⟩ := List.mem_flatten.mp h
  have : (P.find? (fun b => decide (v ∈ b))).isSome := by
    rw [List.find?_isSome]
    exact ⟨b, hbP, by simpa using hvb⟩
  obtain ⟨b2, hb2⟩ := Option.isSome_iff_exists.mp this
  exact ⟨b2, hb2⟩

/-- In a partition with duplicate-free carrier, the block containing a
given vertex is unique. -/
theorem block_unique {P : List (List ℕ)} (hnd : P.flatten.Nodup)
    {b1 b2 : List ℕ} (h1 : b1 ∈ P) (h2 : b2 ∈ P) {v : ℕ}
    (hv1 : v ∈ b1) (hv2 : v ∈ b2) : b1 = b2 := by
  induction P with
  | nil => cases h1
  | cons hd t ih =>
    have hnd' : (hd ++ t.flatten).Nodup := by simpa [List.flatten_cons] using hnd
    have hdisj := (List.nodup_append.mp hnd').2.2
    rcases List.mem_cons.mp h1 with rfl | h1t
    · rcases List.mem_cons.mp h2 with rfl | h2t
      · rfl
      · exact absurd (List.mem_flatten.mpr ⟨b2, h2t, hv2⟩) (fun hj => hdisj hv1 hj)
    · rcases List.mem_cons.mp h2 with rfl | h2t
      · exact absurd (List.mem_flatten.mpr ⟨b1, h1t, hv1⟩) (fun hj => hdisj hv2 hj)
      · exact ih ((List.nodup_append.mp hnd').2.1) h1t h2t

/-- Every block of the partition embeds into a block of the merged
partition. -/
theorem exists_superset_block_merge (P : List (List ℕ)) (u v : ℕ)
    {b : List ℕ} (hb : b ∈ P) :
    ∃ b2 ∈ merge_blocks P u v, ∀ x ∈ b, x ∈ b2 := by
  unfold merge_blocks
  cases hu : block_of P u with
  | none => exact ⟨b, hb, fun x hx => hx⟩
  | some bu =>
    cases hv : block_of P v with
    | none => exact ⟨b, hb, fun x hx => hx⟩
    | some bv =>
      by_cases h1 : b = bu
      · exact ⟨bu ++ bv, List.mem_cons_self _ _,
          fun x hx => List.mem_append_left _ (h1 ▸ hx)⟩
      · by_cases h2 : b = bv
        · exact ⟨bu ++ bv, List.mem_cons_self _ _,
            fun x hx => List.mem_append_right _ (h2 ▸ hx)⟩
        · exact ⟨b, List.mem_cons_of_mem _
            ((mem_erase_block_of_ne h2).mpr ((mem_erase_block_of_ne h1).mpr hb)),
            fun x hx => hx⟩

/-- What a merge does when the two endpoints lie in distinct blocks:
carrier preserved up to permutation, one block fewer, endpoints now
together. -/
theorem merge_spec {P : List (List ℕ)} {u v : ℕ}
    (hu : u ∈ P.flatten) (hv : v ∈ P.flatten) (hs : same_block P u v = false) :
    (merge_blocks P u v).flatten.Perm P.flatten ∧
    (merge_blocks P u v).length + 1 = P.length ∧
    InSame (merge_blocks P u v) u v := by
  obtain ⟨bu, hbu⟩ := block_of_isSome hu
  obtain ⟨bv, hbv⟩ := block_of_isSome hv
  have hbu' := block_of_mem hbu
  have hbv' := block_of_mem hbv
  have hne : bu ≠ bv := by
    intro he
    have hs2 : decide (v ∈ bu) = false := by
      have hx : same_block P u v = decide (v ∈ bu) := by
        rw [same_block, hbu]
      rw [← hx]
      exact hs
    rw [he] at hs2
    exact absurd hbv'.2 (of_decide_eq_false hs2)
  have hmerge : merge_blocks P u v = (bu ++ bv) :: erase_block (erase_block P bu) bv := by
    rw [merge_blocks, hbu, hbv]
  have hbvE : bv ∈ erase_block P bu := (mem_erase_block_of_ne hne.symm).mpr hbv'.1
  have hP : P.Perm (bu :: bv :: erase_block (erase_block P bu) bv) :=
    (perm_cons_erase_block hbu'.1).trans ((perm_cons_erase_block hbvE).cons bu)
  refine ⟨?_, ?_, ?_⟩
  · rw [hmerge]
    have hj : ((bu ++ bv) :: erase_block (erase_block P bu) bv).flatten
        = (bu :: bv :: erase_block (erase_block P bu) bv).flatten := by
      simp [List.flatten_cons]
    rw [hj]
    exact (hP.flatten).symm
  · rw [hmerge]
    have := hP.length_eq
    simp only [List.length_cons] at this ⊢
    omega
  · rw [hmerge]
    exact ⟨bu ++ bv, List.mem_cons_self _ _,
      List.mem_append_left _ hbu'.2, List.mem_append_right _ hbv'.2⟩

/-- Processing an edge preserves the carrier up to permutation. -/
theorem add_edge_join_perm (P : List (List ℕ)) (e : ℕ × ℕ) :
    (add_edge_blocks P e).flatten.Perm P.flatten := by
  unfold add_edge_blocks
  by_cases hs : same_block P e.1 e.2 = true
  · rw [if_pos hs]
  · rw [if_neg hs]
    unfold merge_blocks
    cases hu : block_of P e.1 with
    | none => exact List.Perm.refl _
    | some bu =>
      cases hv : block_of P e.2 with
      | none => exact List.Perm.refl _
      | some bv =>
        have h := merge_spec (List.mem_flatten.mpr ⟨bu, (block_of_mem hu).1, (block_of_mem hu).2⟩)
          (List.mem_flatten.mpr ⟨bv, (block_of_mem hv).1, (block_of_mem hv).2⟩)
          (Bool.eq_false_iff.mpr (fun hc => hs hc))
        rw [merge_blocks, hu, hv] at h
        exact h.1

/-- Processing an edge preserves block nonemptiness. -/
theorem add_edge_blocks_ne_nil {P : List (List ℕ)} {e : ℕ × ℕ}
    (h : ∀ b ∈ P, b ≠ []) : ∀ b ∈ add_edge_blocks P e, b ≠ [] := by
  unfold add_edge_blocks
  by_cases hs : same_block P e.1 e.2 = true
  · rw [if_pos hs]; exact h
  · rw [if_neg hs]
    unfold merge_blocks
    cases hu : block_of P e.1 with
    | none => exact h
    | some bu =>
      cases hv : block_of P e.2 with
      | none => exact h
      | some bv =>
        intro b hb
        rcases List.mem_cons.mp hb with rfl | hbt
        · have hmem := (block_of_mem hu).2
          intro hc
          rcases List.append_eq_nil.mp hc with ⟨h1, _⟩
          rw [h1] at hmem
          simp at hmem
        · exact h b (mem_of_mem_erase_block (mem_of_mem_erase_block hbt))

/-- Two vertices together stay together when an edge is processed. -/
theorem insame_add_edge {P : List (List ℕ)} {e : ℕ × ℕ} {x y : ℕ}
    (h : InSame P x y) : InSame (add_edge_blocks P e) x y := by
  obtain ⟨b, hb, hx, hy⟩ := h
  unfold add_edge_blocks
  by_cases hs : same_block P e.1 e.2 = true
  · rw [if_pos hs]; exact ⟨b, hb, hx, hy⟩
  · rw [if_neg hs]
    obtain ⟨b2, hb2, hsub⟩ := exists_superset_block_merge P e.1 e.2 hb
    exact ⟨b2, hb2, hsub x hx, hsub y hy⟩

/-- An edge of the list joins its endpoints. -/
theorem reaches_single {es : List MEdge} {e : MEdge} (he : e ∈ es) :
    Reaches es e.u e.v :=
  Reaches.step e he (Or.inl ⟨rfl, rfl⟩) (Reaches.refl e.v)

/-- Reachability composes. -/
theorem reaches_trans {es : List MEdge} {a b : ℕ} (h1 : Reaches es a b) :
    ∀ {c : ℕ}, Reaches es b c → Reaches es a c := by
  induction h1 with
  | refl v => intro c h2; exact h2
  | step e he hab h ih => intro c h2; exact Reaches.step e he hab (ih h2)

/-- Reachability is symmetric. -/
theorem reaches_symm {es : List MEdge} {a b : ℕ} (h : Reaches es a b) :
    Reaches es b a := by
  induction h with
  | refl v => exact Reaches.refl v
  | step e he hab h ih =>
    exact reaches_trans ih (Reaches.step e he hab.symm (Reaches.refl _))

/-- Reachability is monotone in the edge list. -/
theorem reaches_mono {es es2 : List MEdge} (hsub : ∀ e ∈ es, e ∈ es2)
    {a b : ℕ} (h : Reaches es a b) : Reaches es2 a b := by
  induction h with
  | refl v => exact Reaches.refl v
  | step e he hab _ ih => exact Reaches.step e (hsub e he) hab ih

/-- A vertex that reaches a distinct vertex is an endpoint of some edge. -/
theorem reaches_incident {es : List MEdge} {a b : ℕ} (h : Reaches es a b)
    (hne : a ≠ b) : ∃ e ∈ es, e.u = a ∨ e.v = a := by
  cases h with
  | refl => exact absurd rfl hne
  | step e he hab h =>
    rcases hab with ⟨h1, _⟩ | ⟨_, h2⟩
    · exact ⟨e, he, Or.inl h1⟩
    · exact ⟨e, he, Or.inr h2⟩

/-- The endpoints of a processed edge land in one block (when covered). -/
theorem insame_add_edge_self {P : List (List ℕ)} {e : ℕ × ℕ}
    (hu : e.1 ∈ P.flatten) (hv : e.2 ∈ P.flatten) :
    InSame (add_edge_blocks P e) e.1 e.2 := by
  unfold add_edge_blocks
  by_cases hs : same_block P e.1 e.2 = true
  · rw [if_pos hs]
    obtain ⟨bu, hbu⟩ := block_of_isSome hu
    have hb := block_of_mem hbu
    have h2 : e.2 ∈ bu := by
      rw [same_block, hbu] at hs
      simpa using hs
    exact ⟨bu, hb.1, hb.2, h2⟩
  · rw [if_neg hs]
    exact (merge_spec hu hv (by simpa using hs)).2.2

/-- InSame is symmetric. -/
theorem insame_symm {P : List (List ℕ)} {x y : ℕ} (h : InSame P x y) :
    InSame P y x := by
  obtain ⟨b, h1, h2, h3⟩ := h
  exact ⟨b, h1, h3, h2⟩

/-- InSame is transitive over a duplicate-free carrier. -/
theorem insame_trans {P : List (List ℕ)} (hnd : P.flatten.Nodup) {x y z : ℕ}
    (h1 : InSame P x y) (h2 : InSame P y z) : InSame P x z := by
  obtain ⟨b1, hb1, hx, hy1⟩ := h1
  obtain ⟨b2, hb2, hy2, hz⟩ := h2
  rw [block_unique hnd hb1 hb2 hy1 hy2] at hx
  exact ⟨b2, hb2, hx, hz⟩

/-- The members of a common block belong to the carrier. -/
theorem insame_mem_join {P : List (List ℕ)} {x y : ℕ} (h : InSame P x y) :
    x ∈ P.flatten ∧ y ∈ P.flatten := by
  obtain ⟨b, hb, hx, hy⟩ := h
  exact ⟨List.mem_flatten.mpr ⟨b, hb, hx⟩, List.mem_flatten.mpr ⟨b, hb, hy⟩⟩

/-- The carrier is preserved, up to permutation, by an edge fold. -/
theorem fold_add_edges_join_perm (es : List (ℕ × ℕ)) :
    ∀ P : List (List ℕ), (es.foldl add_edge_blocks P).flatten.Perm P.flatten := by
  induction es with
  | nil => intro P; exact List.Perm.refl _
  | cons e t ih => intro P; exact (ih _).trans (add_edge_join_perm P e)

/-- Block nonemptiness is preserved by an edge fold. -/
theorem fold_add_edges_ne_nil (es : List (ℕ × ℕ)) :
    ∀ P : List (List ℕ), (∀ b ∈ P, b ≠ []) →
      ∀ b ∈ es.foldl add_edge_blocks P, b ≠ [] := by
  induction es with
  | nil => intro P h; exact h
  | cons e t ih => intro P h; exact ih _ (add_edge_blocks_ne_nil h)

/-- Vertices once together stay together through an edge fold. -/
theorem fold_insame_mono (es : List (ℕ × ℕ)) :
    ∀ (P : List (List ℕ)) (x y : ℕ), InSame P x y →
      InSame (es.foldl add_edge_blocks P) x y := by
  induction es with
  | nil => intro P x y h; exact h
  | cons e t ih => intro P x y h; exact ih _ x y (insame_add_edge h)

/-- After the fold, the endpoints of every processed edge are together. -/
theorem fold_edge_insame (es : List (ℕ × ℕ)) :
    ∀ P : List (List ℕ),
      (∀ e ∈ es, e.1 ∈ P.flatten ∧ e.2 ∈ P.flatten) →
      ∀ e ∈ es, InSame (es.foldl add_edge_blocks P) e.1 e.2 := by
  induction es with
  | nil => intro P _ e he; cases he
  | cons f t ih =>
    intro P hcov e he
    rw [List.foldl_cons]
    rcases List.mem_cons.mp he with rfl | het
    · have h := hcov e (List.mem_cons_self e t)
      exact fold_insame_mono t _ _ _ (insame_add_edge_self h.1 h.2)
    · refine ih (add_edge_blocks P f) ?_ e het
      intro g hg
      have h := hcov g (List.mem_cons_of_mem f hg)
      exact ⟨(add_edge_join_perm P f).mem_iff.mpr h.1,
        (add_edge_join_perm P f).mem_iff.mpr h.2⟩

/-- The partition component of a Kruskal step is the component merge. -/
theorem kruskal_step_fst (P : List (List ℕ)) (kept : List MEdge) (e : MEdge) :
    (kruskal_step (P, kept) e).1 = add_edge_blocks P (e.u, e.v) := by
  rw [kruskal_step, add_edge_blocks]
  by_cases hs : same_block P e.u e.v = true
  · rw [if_pos hs, if_pos hs]
  · rw [if_neg hs, if_neg hs]

/-- The partition component of the Kruskal fold is the component fold of
the endpoint pairs. -/
theorem kruskal_fold_fst (es : List MEdge) :
    ∀ (P : List (List ℕ)) (kept : List MEdge),
      (es.foldl kruskal_step (P, kept)).1
        = (es.map (fun e => (e.u, e.v))).foldl add_edge_blocks P := by
  induction es with
  | nil => intro P kept; rfl
  | cons e t ih =>
    intro P kept
    rw [List.foldl_cons, List.map_cons, List.foldl_cons]
    have hpair : kruskal_step (P, kept) e
        = (add_edge_blocks P (e.u, e.v), (kruskal_step (P, kept) e).2) := by
      rw [← kruskal_step_fst P kept e]
    rw [hpair]
    exact ih _ _

/-- Edge count: kept edges plus remaining blocks stay constant through
the Kruskal fold, each kept edge merging exactly two blocks. -/
theorem kruskal_fold_count (es : List MEdge) :
    ∀ (P : List (List ℕ)) (kept : List MEdge),
      (∀ e ∈ es, e.u ∈ P.flatten ∧ e.v ∈ P.flatten) →
      (es.foldl kruskal_step (P, kept)).2.length
          + (es.foldl kruskal_step (P, kept)).1.length
        = kept.length + P.length := by
  induction es with
  | nil => intro P kept _; simp
  | cons e t ih =>
    intro P kept hcov
    rw [List.foldl_cons]
    by_cases hs : same_block P e.u e.v = true
    · have hstep : kruskal_step (P, kept) e = (P, kept) := by
        rw [kruskal_step, if_pos hs]
      rw [hstep]
      exact ih P kept (fun f hf => hcov f (List.mem_cons_of_mem e hf))
    · have hsf : same_block P e.u e.v = false := by simpa using hs
      have he := hcov e (List.mem_cons_self e t)
      have hm := merge_spec he.1 he.2 hsf
      have hstep : kruskal_step (P, kept) e
          = (merge_blocks P e.u e.v, kept ++ [e]) := by
        rw [kruskal_step, if_neg hs]
      rw [hstep]
      have hcov2 : ∀ f ∈ t, f.u ∈ (merge_blocks P e.u e.v).flatten
          ∧ f.v ∈ (merge_blocks P e.u e.v).flatten := by
        intro f hf
        have h := hcov f (List.mem_cons_of_mem e hf)
        exact ⟨hm.1.mem_iff.mpr h.1, hm.1.mem_iff.mpr h.2⟩
      have hrec := ih (merge_blocks P e.u e.v) (kept ++ [e]) hcov2
      have hlen := hm.2.1
      simp only [List.length_append, List.length_cons, List.length_nil] at hrec
      omega

/-- BlocksConn is preserved through the Kruskal fold. -/
theorem kruskal_fold_blocksconn (es : List MEdge) :
    ∀ (P : List (List ℕ)) (kept : List MEdge), BlocksConn P kept →
      BlocksConn (es.foldl kruskal_step (P, kept)).1
        (es.foldl kruskal_step (P, kept)).2 := by
  induction es with
  | nil => intro P kept h; exact h
  | cons e t ih =>
    intro P kept h
    rw [List.foldl_cons]
    by_cases hs : same_block P e.u e.v = true
    · have hstep : kruskal_step (P, kept) e = (P, kept) := by
        rw [kruskal_step, if_pos hs]
      rw [hstep]
      exact ih P kept h
    · have hstep : kruskal_step (P, kept) e
          = (merge_blocks P e.u e.v, kept ++ [e]) := by
        rw [kruskal_step, if_neg hs]
      rw [hstep]
      apply ih
      intro b hb x hx y hy
      have hmono : ∀ p q : ℕ, Reaches kept p q → Reaches (kept ++ [e]) p q :=
        fun p q hr => reaches_mono (fun f hf => List.mem_append_left _ hf) hr
      revert hb
      unfold merge_blocks
      cases hu : block_of P e.u with
      | none => intro hb; exact hmono x y (h b hb x hx y hy)
      | some bu =>
        cases hv : block_of P e.v with
        | none => intro hb; exact hmono x y (h b hb x hx y hy)
        | some bv =>
          intro hb
          have heE : e ∈ kept ++ [e] :=
            List.mem_append_right _ (List.mem_singleton_self e)
          have hbu := block_of_mem hu
          have hbv := block_of_mem hv
          rcases List.mem_cons.mp hb with rfl | hbt
          · have key : ∀ z ∈ bu ++ bv, Reaches (kept ++ [e]) e.u z := by
              intro z hz
              rcases List.mem_append.mp hz with hzu | hzv
              · exact hmono _ _ (h bu hbu.1 e.u hbu.2 z hzu)
              · exact reaches_trans (reaches_single heE)
                  (hmono _ _ (h bv hbv.1 e.v hbv.2 z hzv))
            exact reaches_trans (reaches_symm (key x hx)) (key y hy)
          · exact hmono x y
              (h b (mem_of_mem_erase_block (mem_of_mem_erase_block hbt)) x hx y hy)

/-- The carrier of the discrete partition is the vertex list. -/
theorem init_blocks_join (verts : List ℕ) : (init_blocks verts).flatten = verts := by
  induction verts with
  | nil => rfl
  | cons v t ih =>
    rw [init_blocks, List.map_cons, List.flatten_cons]
    rw [init_blocks] at ih
    rw [ih]
    rfl

/-- The discrete partition has one block per vertex. -/
theorem init_blocks_length (verts : List ℕ) :
    (init_blocks verts).length = verts.length := List.length_map verts _

/-- The blocks of the discrete partition are nonempty. -/
theorem init_blocks_ne_nil (verts : List ℕ) :
    ∀ b ∈ init_blocks verts, b ≠ [] := by
  intro b hb
  obtain ⟨v, _, rfl⟩ := List.mem_map.mp hb
  simp

/-- The discrete partition is block-connected under any edge list. -/
theorem init_blocks_conn (verts : List ℕ) (kept : List MEdge) :
    BlocksConn (init_blocks verts) kept := by
  intro b hb x hx y hy
  obtain ⟨v, _, rfl⟩ := List.mem_map.mp hb
  rw [List.mem_singleton] at hx hy
  rw [hx, hy]
  exact Reaches.refl v

/-- A partition whose blocks all contain one fixed vertex has one block. -/
theorem partition_length_one {P : List (List ℕ)} (hnd : P.flatten.Nodup)
    {v0 : ℕ} (hv0 : v0 ∈ P.flatten) (hall : ∀ b ∈ P, v0 ∈ b) : P.length = 1 := by
  cases P with
  | nil => simp at hv0
  | cons b1 t =>
    cases t with
    | nil => rfl
    | cons b2 t2 =>
      exfalso
      have h1 : v0 ∈ b1 := hall b1 (List.mem_cons_self _ _)
      have h2 : v0 ∈ b2 := hall b2 (List.mem_cons_of_mem _ (List.mem_cons_self _ _))
      have hnd' : (b1 ++ ((b2 :: t2).flatten)).Nodup := by
        simpa [List.flatten_cons] using hnd
      exact (List.nodup_append.mp hnd').2.2 h1
        (List.mem_flatten.mpr ⟨b2, List.mem_cons_self _ _, h2⟩)

/-- A duplicate-free list of length at least two has, next to any member,
another distinct member. -/
theorem exists_other_mem {verts : List ℕ} (hnd : verts.Nodup)
    (h2 : 2 ≤ verts.length) {v : ℕ} (hv : v ∈ verts) :
    ∃ u ∈ verts, u ≠ v := by
  cases verts with
  | nil => simp at h2
  | cons a t =>
    cases t with
    | nil => simp at h2
    | cons b t2 =>
      by_cases hav : a = v
      · refine ⟨b, List.mem_cons_of_mem _ (List.mem_cons_self _ _), ?_⟩
        intro hbv
        have hna := (List.nodup_cons.mp hnd).1
        apply hna
        rw [hbv, ← hav]
        exact List.mem_cons_self a t2
      · exact ⟨a, List.mem_cons_self _ _, hav⟩

/-- Inserting a node preserves duplicate-freeness. -/
theorem insert_node_nodup {l : List ℕ} (h : l.Nodup) (v : ℕ) :
    (insert_node l v).Nodup := by
  unfold insert_node
  by_cases hv : v ∈ l
  · rw [if_pos hv]; exact h
  · rw [if_neg hv]
    exact List.nodup_append.mpr ⟨h, List.nodup_singleton v,
      fun a ha hav => hv ((List.mem_singleton.mp hav) ▸ ha)⟩

/-- The inserted node is a member. -/
theorem insert_node_mem (l : List ℕ) (v : ℕ) : v ∈ insert_node l v := by
  unfold insert_node
  by_cases hv : v ∈ l
  · rw [if_pos hv]; exact hv
  · rw [if_neg hv]; exact List.mem_append_right _ (List.mem_singleton_self v)

/-- Insertion preserves membership. -/
theorem insert_node_mem_of_mem {l : List ℕ} {w : ℕ} (h : w ∈ l) (v : ℕ) :
    w ∈ insert_node l v := by
  unfold insert_node
  by_cases hv : v ∈ l
  · rw [if_pos hv]; exact h
  · rw [if_neg hv]; exact List.mem_append_left _ h

/-- The graph node list has no duplicates. -/
theorem graph_vertices_nodup (df : List StitchRow) :
    (graph_vertices df).Nodup := by
  rw [graph_vertices]
  have key : ∀ (rows : List StitchRow) (l : List ℕ), l.Nodup →
      (rows.foldl (fun l r => insert_node (insert_node l r.aname) r.bname) l).Nodup := by
    intro rows
    induction rows with
    | nil => intro l h; exact h
    | cons r t ih =>
      intro l h
      exact ih _ (insert_node_nodup (insert_node_nodup h _) _)
  exact key df [] List.nodup_nil

/-- Seeds of the node fold survive the fold. -/
theorem node_fold_mem_of_mem :
    ∀ (rows : List StitchRow) (l : List ℕ) (w : ℕ), w ∈ l →
      w ∈ rows.foldl (fun l r => insert_node (insert_node l r.aname) r.bname) l := by
  intro rows
  induction rows with
  | nil => intro l w h; exact h
  | cons r t ih =>
    intro l w h
    exact ih _ w (insert_node_mem_of_mem (insert_node_mem_of_mem h _) _)

/-- Both tile names of every row are nodes of the overlap graph. -/
theorem mem_graph_vertices :
    ∀ (rows : List StitchRow) (l : List ℕ) (r : StitchRow), r ∈ rows →
      r.aname ∈ rows.foldl (fun l q => insert_node (insert_node l q.aname) q.bname) l ∧
      r.bname ∈ rows.foldl (fun l q => insert_node (insert_node l q.aname) q.bname) l := by
  intro rows
  induction rows with
  | nil => intro l r h; cases h
  | cons q t ih =>
    intro l r h
    rcases List.mem_cons.mp h with rfl | ht
    · constructor
      · exact node_fold_mem_of_mem t _ _
          (insert_node_mem_of_mem (insert_node_mem l r.aname) _)
      · exact node_fold_mem_of_mem t _ _ (insert_node_mem _ r.bname)
    · exact ih _ r ht

/-- The second component of an enumerated entry is a list member. -/
theorem snd_mem_of_mem_enumFrom {α : Type} {l : List α} :
    ∀ {n : ℕ} {p : ℕ × α}, p ∈ l.enumFrom n → p.2 ∈ l := by
  induction l with
  | nil => intro n p h; cases h
  | cons a t ih =>
    intro n p h
    rw [List.enumFrom] at h
    rcases List.mem_cons.mp h with rfl | ht
    · exact List.mem_cons_self a t
    · exact List.mem_cons_of_mem a (ih ht)

/-- The endpoints of every graph edge are graph nodes. -/
theorem graph_edges_cov (df : List StitchRow) :
    ∀ e ∈ graph_edges df, e.u ∈ graph_vertices df ∧ e.v ∈ graph_vertices df := by
  intro e he
  rw [graph_edges] at he
  obtain ⟨p, hp, rfl⟩ := List.mem_map.mp he
  have hr : p.2 ∈ df := snd_mem_of_mem_enumFrom hp
  exact mem_graph_vertices df [] p.2 hr

/-- The sorted edge list is a permutation of the edge list. -/
theorem sort_by_weight_perm (es : List MEdge) : (sort_by_weight es).Perm es :=
  List.perm_insertionSort _ es

/-- Kruskal on a connected graph: the kept edges number one less than
the vertices, and (with at least two vertices) touch every vertex. -/
theorem kruskal_forest_connected (verts : List ℕ) (es : List MEdge)
    (hnd : verts.Nodup) (hvne : verts ≠ [])
    (hcov : ∀ e ∈ es, e.u ∈ verts ∧ e.v ∈ verts)
    (hconn : ∀ u v : ℕ, u ∈ verts → v ∈ verts → Reaches es u v) :
    (es.foldl kruskal_step (init_blocks verts, [])).2.length + 1 = verts.length ∧
    (2 ≤ verts.length → ∀ v ∈ verts,
      ∃ e ∈ (es.foldl kruskal_step (init_blocks verts, [])).2, e.u = v ∨ e.v = v) := by
  set r := es.foldl kruskal_step (init_blocks verts, []) with hr
  have hjoin : r.1.flatten.Perm verts := by
    rw [hr, kruskal_fold_fst]
    have h := fold_add_edges_join_perm (es.map (fun e => (e.u, e.v))) (init_blocks verts)
    rw [init_blocks_join] at h
    exact h
  have hndJ : r.1.flatten.Nodup := (hjoin.nodup_iff).mpr hnd
  have hcovJ : ∀ e ∈ es, e.u ∈ (init_blocks verts).flatten
      ∧ e.v ∈ (init_blocks verts).flatten := by
    intro e he
    rw [init_blocks_join]
    exact hcov e he
  have hcount := kruskal_fold_count es (init_blocks verts) [] hcovJ
  rw [← hr] at hcount
  rw [init_blocks_length] at hcount
  simp only [List.length_nil, Nat.zero_add] at hcount
  have hins : ∀ e ∈ es, InSame r.1 e.u e.v := by
    intro e he
    rw [hr, kruskal_fold_fst]
    have h := fold_edge_insame (es.map (fun f => (f.u, f.v))) (init_blocks verts)
      (by
        intro g hg
        obtain ⟨f, hf, rfl⟩ := List.mem_map.mp hg
        exact hcovJ f hf)
      (e.u, e.v) (List.mem_map_of_mem _ he)
    exact h
  have hreach : ∀ a c : ℕ, Reaches es a c → a ∈ verts → InSame r.1 a c := by
    intro a c h
    induction h with
    | refl v =>
      intro hv
      have hvj : v ∈ r.1.flatten := hjoin.mem_iff.mpr hv
      obtain ⟨b, hb, hvb⟩ := List.mem_flatten.mp hvj
      exact ⟨b, hb, hvb, hvb⟩
    | step e he hab h ih =>
      intro ha
      have hiuv := hins e he
      rcases hab with ⟨hu, hv⟩ | ⟨hu, hv⟩
      · rw [hu, hv] at hiuv
        have hb : _ ∈ verts := hjoin.mem_iff.mp (insame_mem_join hiuv).2
        exact insame_trans hndJ hiuv (ih hb)
      · rw [hu, hv] at hiuv
        have hiuv' := insame_symm hiuv
        have hb : _ ∈ verts := hjoin.mem_iff.mp (insame_mem_join hiuv').2
        exact insame_trans hndJ hiuv' (ih hb)
  obtain ⟨v0, vrest, hveq⟩ := List.exists_cons_of_ne_nil hvne
  have hv0 : v0 ∈ verts := by rw [hveq]; exact List.mem_cons_self _ _
  have hnonempty : ∀ b ∈ r.1, b ≠ [] := by
    rw [hr, kruskal_fold_fst]
    exact fold_add_edges_ne_nil _ _ (init_blocks_ne_nil verts)
  have hall : ∀ b ∈ r.1, v0 ∈ b := by
    intro b hb
    obtain ⟨w, hw⟩ := List.exists_mem_of_ne_nil b (hnonempty b hb)
    have hwv : w ∈ verts := hjoin.mem_iff.mp (List.mem_flatten.mpr ⟨b, hb, hw⟩)
    have hins2 : InSame r.1 w v0 := hreach w v0 (hconn w v0 hwv hv0) hwv
    obtain ⟨b2, hb2, hwb2, hv0b2⟩ := hins2
    rw [block_unique hndJ hb hb2 hw hwb2]
    exact hv0b2
  have hone : r.1.length = 1 :=
    partition_length_one hndJ (hjoin.mem_iff.mpr hv0) hall
  constructor
  · omega
  · intro h2 v hv
    obtain ⟨u, hu, hune⟩ := exists_other_mem hnd h2 hv
    have hvj : v ∈ r.1.flatten := hjoin.mem_iff.mpr hv
    have huj : u ∈ r.1.flatten := hjoin.mem_iff.mpr hu
    obtain ⟨bv, hbv, hvbv⟩ := List.mem_flatten.mp hvj
    obtain ⟨bu, hbu, hubu⟩ := List.mem_flatten.mp huj
    have hbeq : bv = bu := by
      have hvb : v0 ∈ bv := hall bv hbv
      have hub : v0 ∈ bu := hall bu hbu
      exact block_unique hndJ hbv hbu hvb hub
    rw [hbeq] at hvbv
    have hbc : BlocksConn r.1 r.2 := by
      rw [hr]
      have h1 : (es.foldl kruskal_step (init_blocks verts, [])).1
          = (es.foldl kruskal_step (init_blocks verts, ([] : List MEdge))).1 := rfl
      exact kruskal_fold_blocksconn es (init_blocks verts) []
        (init_blocks_conn verts [])
    have hrv : Reaches r.2 v u := hbc bu hbu v hvbv u hubu
    exact reaches_incident hrv (Ne.symm hune)

/-- C2 (amended): for every set of pairwise registration measurements
whose overlap graph is connected over its tile set, the minimum spanning
tree computed by Kruskal has exactly (tile count - 1) edges, and, when
there are at least two tiles, touches every tile. (The source raises no
error on a disconnected graph: networkx returns a spanning forest and
tiles unreachable from the root keep the initial zero position; see the
accompanying counterexample.) -/
theorem mst_connected_spans (df : List StitchRow)
    (hne : graph_vertices df ≠ [])
    (hconn : ∀ u v : ℕ, u ∈ graph_vertices df → v ∈ graph_vertices df →
      Reaches (graph_edges df) u v) :
    (minimum_spanning_tree df).length + 1 = (graph_vertices df).length ∧
    (2 ≤ (graph_vertices df).length → ∀ v ∈ graph_vertices df,
      ∃ e ∈ minimum_spanning_tree df, e.u = v ∨ e.v = v) := by
  have hperm := sort_by_weight_perm (graph_edges df)
  have hcov : ∀ e ∈ sort_by_weight (graph_edges df),
      e.u ∈ graph_vertices df ∧ e.v ∈ graph_vertices df :=
    fun e he => graph_edges_cov df e (hperm.mem_iff.mp he)
  have hconn2 : ∀ u v : ℕ, u ∈ graph_vertices df → v ∈ graph_vertices df →
      Reaches (sort_by_weight (graph_edges df)) u v :=
    fun u v hu hv =>
      reaches_mono (fun e he => hperm.mem_iff.mpr he) (hconn u v hu hv)
  have h := kruskal_forest_connected (graph_vertices df)
    (sort_by_weight (graph_edges df)) (graph_vertices_nodup df) hne hcov hconn2
  exact h

/-- Witness for C2 at a connected two-tile graph with one measurement. -/
theorem mst_connected_spans_witness :
    (minimum_spanning_tree two_tile_df).length + 1
      = (graph_vertices two_tile_df).length := by
  have hedge : (⟨0, 1, 0, 0⟩ : MEdge) ∈ graph_edges two_tile_df := by decide
  have h01 : Reaches (graph_edges two_tile_df) 0 1 := reaches_single hedge
  refine (mst_connected_spans two_tile_df (by decide) ?_).1
  intro u v hu hv
  have hverts : graph_vertices two_tile_df = [0, 1] := by decide
  rw [hverts] at hu hv
  rcases List.mem_cons.mp hu with rfl | hu2
  · rcases List.mem_cons.mp hv with rfl | hv2
    · exact Reaches.refl 0
    · rw [List.mem_singleton.mp hv2]
      exact h01
  · rw [List.mem_singleton.mp hu2]
    rcases List.mem_cons.mp hv with rfl | hv2
    · exact reaches_symm h01
    · rw [List.mem_singleton.mp hv2]
      exact Reaches.refl 1

/-- C2 counterexample: on a four-tile input whose overlap graph is
disconnected (tile 0 paired with 1 only, tile 2 with 3 only) no
disconnected-graph error is raised: the source has no connectivity
check, and absolute-position estimation aborts with an unrelated
AttributeError (`self.fm.ascending_tiles_X`, fuse_runner.py line 59;
FileMatrix only defines `ascending_tiles_x`) on the first traversed
spanning-tree edge — exactly the same failure it hits on a connected
two-tile input (there via `ascending_tiles_Y`, line 67). -/
theorem disconnected_no_graph_error :
    (¬ Reaches (graph_edges disconnected_df) 0 2) ∧
    absolute_positions scenario_fm disconnected_df file_matrix_attrs
      = Except.error (attribute_error "ascending_tiles_X") ∧
    absolute_positions two_tile_fm two_tile_df file_matrix_attrs
      = Except.error (attribute_error "ascending_tiles_Y") := by
  refine ⟨?_, by rfl, by rfl⟩
  intro hreach
  have key : ∀ a c : ℕ, Reaches (graph_edges disconnected_df) a c →
      a ∈ [0, 1] → c ∈ [0, 1] := by
    intro a c h
    induction h with
    | refl v => intro hv; exact hv
    | step e he hab h ih =>
      intro ha
      have hE : graph_edges disconnected_df
          = [⟨0, 1, 0, 0⟩, ⟨2, 3, 0, 1⟩] := by decide
      rw [hE] at he
      apply ih
      rcases List.mem_cons.mp he with rfl | he2
      · rcases hab with ⟨h1, h2⟩ | ⟨h1, h2⟩
        · rw [← h2]; decide
        · rw [← h1]; decide
      · rw [List.mem_singleton.mp he2] at hab
        exfalso
        rcases hab with ⟨h1, _⟩ | ⟨_, h2⟩
        · rw [← h1] at ha; simp at ha
        · rw [← h2] at ha; simp at ha
  have := key 0 2 hreach (by decide)
  simp at this

/-- C5: on the 2-by-2, 100 by 100 by 5 scenario — whether the 20-pixel
axis-2 shift is read literally into `dx` or placed in `dy` per the
code's stride convention — _compute_absolute_positions raises an
uncaught AttributeError on the first traversed spanning-tree edge
(an axis-2 edge, so `self.fm.ascending_tiles_X` at fuse_runner.py line
59, an attribute FileMatrix never defines: it spells it
`ascending_tiles_x`). No tile is ever assigned a position, so tile
(1,1) is placed neither at (100,100,0) nor at (80,80,0) and no output
volume shape is computed. -/
theorem scenario_attribute_error :
    absolute_positions scenario_fm scenario_df_conv file_matrix_attrs
      = Except.error (attribute_error "ascending_tiles_X") ∧
    absolute_positions scenario_fm scenario_df_literal file_matrix_attrs
      = Except.error (attribute_error "ascending_tiles_X") :=
  ⟨rfl, rfl⟩

/-- A singleton block survives the processing of an edge that is a
self-loop or avoids its vertex. -/
theorem singleton_add_edge {P : List (List ℕ)} {v : ℕ} {e : ℕ × ℕ}
    (hv : [v] ∈ P)
    (hloop : e.1 = e.2 ∨ (e.1 ≠ v ∧ e.2 ≠ v)) :
    [v] ∈ add_edge_blocks P e := by
  unfold add_edge_blocks
  by_cases hs : same_block P e.1 e.2 = true
  · rw [if_pos hs]; exact hv
  · rw [if_neg hs]
    unfold merge_blocks
    cases hu : block_of P e.1 with
    | none => exact hv
    | some bu =>
      cases hw : block_of P e.2 with
      | none => exact hv
      | some bv =>
        have hbu := block_of_mem hu
        have hbv := block_of_mem hw
        rcases hloop with heq | ⟨h1, h2⟩
        · exfalso
          apply hs
          rw [same_block, hu]
          exact decide_eq_true (heq ▸ hbu.2)
        · have hne1 : [v] ≠ bu := by
            intro hc
            apply h1
            have hm := hbu.2
            rw [← hc] at hm
            exact List.mem_singleton.mp hm
          have hne2 : [v] ≠ bv := by
            intro hc
            apply h2
            have hm := hbv.2
            rw [← hc] at hm
            exact List.mem_singleton.mp hm
          exact List.mem_cons_of_mem _
            ((mem_erase_block_of_ne hne2).mpr ((mem_erase_block_of_ne hne1).mpr hv))

/-- A singleton block survives a whole fold of such edges. -/
theorem fold_singleton (es : List (ℕ × ℕ)) :
    ∀ (P : List (List ℕ)) (v : ℕ), [v] ∈ P →
      (∀ e ∈ es, e.1 = e.2 ∨ (e.1 ≠ v ∧ e.2 ≠ v)) →
      [v] ∈ es.foldl add_edge_blocks P := by
  induction es with
  | nil => intro P v hv _; exact hv
  | cons e t ih =>
    intro P v hv hloop
    rw [List.foldl_cons]
    exact ih _ v (singleton_add_edge hv (hloop e (List.mem_cons_self e t)))
      (fun f hf => hloop f (List.mem_cons_of_mem e hf))

/-- The default-valued last element of a nonempty list is a member. -/
theorem getLastD_mem : ∀ (l : List ℕ) (d : ℕ), l = [] ∨ l.getLastD d ∈ l := by
  intro l
  induction l with
  | nil => intro d; exact Or.inl rfl
  | cons a t ih =>
    intro d
    right
    rw [List.getLastD_cons]
    rcases ih a with rfl | h
    · simp [List.getLastD]
    · exact List.mem_cons_of_mem a h

/-- Both components of every view pair belong to the view. -/
theorem view_pairs_mem {l : List ℕ} {e : ℕ × ℕ} (h : e ∈ view_pairs l) :
    e.1 ∈ l ∧ e.2 ∈ l := by
  obtain ⟨e1, e2⟩ := e
  unfold view_pairs at h
  cases l with
  | nil => cases h
  | cons a t =>
    rcases List.mem_append.mp h with h1 | h2
    · have hz := List.of_mem_zip h1
      exact ⟨hz.1, List.mem_cons_of_mem a hz.2⟩
    · have he := List.mem_singleton.mp h2
      have he1 : e1 = a := congrArg Prod.fst he
      have he2 : e2 = (a :: t).getLastD 0 := congrArg Prod.snd he
      rw [he1, he2]
      refine ⟨List.mem_cons_self _ _, ?_⟩
      rcases getLastD_mem (a :: t) 0 with hc | hm
      · cases hc
      · exact hm

/-- In a table whose filenames are duplicate free, equal filenames give
equal rows. -/
theorem eq_of_filename_eq {df : List PTileRow}
    (hnd : (df.map (fun r => r.filename)).Nodup)
    {s t : PTileRow} (hs : s ∈ df) (ht : t ∈ df)
    (h : s.filename = t.filename) : s = t := by
  induction df with
  | nil => cases hs
  | cons a rest ih =>
    rw [List.map_cons, List.nodup_cons] at hnd
    rcases List.mem_cons.mp hs with rfl | hs2
    · rcases List.mem_cons.mp ht with rfl | ht2
      · rfl
      · exfalso
        apply hnd.1
        rw [h]
        exact List.mem_map_of_mem _ ht2
    · rcases List.mem_cons.mp ht with rfl | ht2
      · exfalso
        apply hnd.1
        rw [← h]
        exact List.mem_map_of_mem _ hs2
      · exact ih hnd.2 hs2 ht2

/-- Membership in a containment view. -/
theorem mem_containing_view {df : List PTileRow} {row : PTileRow} {w : ℕ} :
    w ∈ containing_view df row ↔
      ∃ s, s ∈ df ∧ (s.Z ≤ row.Z ∧ row.Z_end ≤ s.Z_end) ∧ s.filename = w := by
  unfold containing_view
  rw [List.mem_map]
  constructor
  · rintro ⟨s, hsf, rfl⟩
    rw [List.mem_filter] at hsf
    refine ⟨s, hsf.1, ?_, rfl⟩
    have := hsf.2
    simp only [Bool.and_eq_true, decide_eq_true_eq] at this
    exact this
  · rintro ⟨s, hsdf, hcond, rfl⟩
    refine ⟨s, ?_, rfl⟩
    rw [List.mem_filter]
    exact ⟨hsdf, by simp only [Bool.and_eq_true, decide_eq_true_eq]; exact hcond⟩

/-- A filter whose predicate holds exactly at one member (of a table
with distinct filenames) returns that single row. -/
theorem filter_isolated :
    ∀ (l : List PTileRow) (t : PTileRow) (p : PTileRow → Bool),
      (l.map (fun r => r.filename)).Nodup → t ∈ l →
      (∀ s ∈ l, p s = true ↔ s = t) →
      l.filter p = [t] := by
  intro l
  induction l with
  | nil => intro t p _ ht _; cases ht
  | cons a rest ih =>
    intro t p hnd ht hpred
    rw [List.map_cons, List.nodup_cons] at hnd
    rcases List.mem_cons.mp ht with heq | ht2
    · subst heq
      rw [List.filter_cons, if_pos ((hpred t (List.mem_cons_self t rest)).mpr rfl)]
      have hrest : rest.filter p = [] := by
        rw [List.filter_eq_nil_iff]
        intro s hsr hc
        have hseq := (hpred s (List.mem_cons_of_mem t hsr)).mp hc
        apply hnd.1
        rw [← hseq]
        exact List.mem_map_of_mem _ hsr
      rw [hrest]
    · have ha : ¬ (p a = true) := by
        intro hc
        have hseq := (hpred a (List.mem_cons_self a rest)).mp hc
        apply hnd.1
        rw [hseq]
        exact List.mem_map_of_mem _ ht2
      rw [List.filter_cons, if_neg ha]
      exact ih t p hnd.2 ht2 (fun s hs => hpred s (List.mem_cons_of_mem a hs))

/-- The containment view of an isolated tile is just that tile. -/
theorem containing_view_isolated {df : List PTileRow} {t : PTileRow}
    (hnd : (df.map (fun r => r.filename)).Nodup) (ht : t ∈ df)
    (hiso : ∀ s ∈ df, s ≠ t → ¬ (s.Z ≤ t.Z ∧ t.Z_end ≤ s.Z_end)) :
    containing_view df t = [t.filename] := by
  have hpred : ∀ s ∈ df,
      (decide (s.Z ≤ t.Z) && decide (t.Z_end ≤ s.Z_end)) = true ↔ s = t := by
    intro s hsdf
    simp only [Bool.and_eq_true, decide_eq_true_eq]
    constructor
    · intro hc
      by_contra hne
      exact hiso s hsdf hne hc
    · rintro rfl
      exact ⟨le_refl _, le_refl _⟩
  unfold containing_view
  rw [filter_isolated df t _ hnd ht hpred]
  rfl

/-- C8: for every tile table whose filenames are distinct and that forms
a complete X-by-Y grid, the slices are groupings whose union is exactly
the tile set and whose pairwise intersections are empty; a tile whose Z
interval neither contains nor is contained in any other tile's interval
forms a singleton slice. -/
theorem slices_partition (df : List PTileRow)
    (hnd : (df.map (fun r => r.filename)).Nodup)
    (hgrid : (df.map PTileRow.X).dedup.length * (df.map PTileRow.Y).dedup.length
        = df.length) :
    (slices df).flatten.Perm (df.map (fun r => r.filename)) ∧
    List.Pairwise List.Disjoint (slices df) ∧
    (∀ t ∈ df,
      (∀ s ∈ df, s ≠ t → ¬ (s.Z ≤ t.Z ∧ t.Z_end ≤ s.Z_end)
          ∧ ¬ (t.Z ≤ s.Z ∧ s.Z_end ≤ t.Z_end)) →
      [t.filename] ∈ slices df) := by
  have hperm : (slices df).flatten.Perm (df.map (fun r => r.filename)) := by
    unfold slices components_of
    have h := fold_add_edges_join_perm
      (df.flatMap (fun row => view_pairs (containing_view df row)))
      (init_blocks (df.map (fun r => r.filename)))
    rw [init_blocks_join] at h
    exact h
  refine ⟨hperm, ?_, ?_⟩
  · have hndJ : (slices df).flatten.Nodup := (hperm.nodup_iff).mpr hnd
    exact (List.nodup_flatten.mp hndJ).2
  · intro t ht hiso
    unfold slices components_of
    apply fold_singleton
    · exact List.mem_map_of_mem (fun v => [v]) (List.mem_map_of_mem _ ht)
    · intro e he
      rw [List.mem_flatMap] at he
      obtain ⟨row, hrow, hev⟩ := he
      obtain ⟨h1, h2⟩ := view_pairs_mem hev
      by_cases hrt : row = t
      · subst hrt
        rw [containing_view_isolated hnd ht (fun s hs hsne => (hiso s hs hsne).1)]
          at h1 h2
        left
        rw [List.mem_singleton.mp h1, List.mem_singleton.mp h2]
      · right
        constructor
        · intro hc
          rw [hc] at h1
          obtain ⟨s, hsdf, hcond, hsf⟩ := mem_containing_view.mp h1
          have hst : s = t := eq_of_filename_eq hnd hsdf ht hsf
          subst hst
          exact (hiso row hrow (fun hc2 => hrt hc2) ).2 ⟨hcond.1, hcond.2⟩
        · intro hc
          rw [hc] at h2
          obtain ⟨s, hsdf, hcond, hsf⟩ := mem_containing_view.mp h2
          have hst : s = t := eq_of_filename_eq hnd hsdf ht hsf
          subst hst
          exact (hiso row hrow (fun hc2 => hrt hc2)).2 ⟨hcond.1, hcond.2⟩

/-- Witness for C8 at a concrete one-tile table. -/
theorem slices_partition_witness :
    (slices one_tile_table).flatten.Perm
      (one_tile_table.map (fun r => r.filename)) :=
  (slices_partition one_tile_table (by decide) (by decide)).1

end ZetaStitcher

